import Mathlib

/-!
Verification of the BST-backed map `BSTMap` from `src/SYSC2100/bstmap.py`.

The Python class is shallowly embedded: the `_Node` objects become an
inductive tree type, the container (with its `_root` and `_num_entries`
attributes) becomes a structure, and each method's recursive helper is
translated as a Lean function over that tree.  Keys are drawn from an
arbitrary linearly ordered type (the Python code only uses `==` and `<`
on keys); values are an arbitrary opaque type.  A `raise KeyError` is
modelled with `Except`.
-/

namespace SYSC2100

/-- Models `BSTMap._Node`: a key, its value, and optional left/right
children.  Python's `None` child link is the `nil` constructor. -/
inductive Node (α β : Type) : Type where
  | nil : Node α β
  | mk (key : α) (value : β) (left : Node α β) (right : Node α β) : Node α β
deriving DecidableEq

/-- Models `BSTMap._Node.__iter__`: inorder traversal of the subtree rooted
at this node, yielding the keys (left subtree, then this key, then right
subtree); `nil` contributes nothing. -/
def Node.inorder {α β : Type} : Node α β → List α
  | .nil => []
  | .mk key _ left right => left.inorder ++ key :: right.inorder

/-- Models the container `BSTMap` itself: attribute `_root` (the top node,
`Node.nil` when the tree is empty) and `_num_entries` (the stored count of
key/value pairs). -/
structure BSTMap (α β : Type) : Type where
  root : Node α β
  num_entries : Nat
deriving DecidableEq

/-- Models the Python exceptions the code can raise: `__getitem__` raises
`KeyError(f'{key}')` carrying the missing key. -/
inductive PyErr (α : Type) : Type where
  | keyError (key : α) : PyErr α
deriving DecidableEq

variable {α β : Type}

/-- Models the nested helper `_set_item` of `BSTMap.__setitem__`.  It
returns the (new) root of the subtree together with the number of times
`self._num_entries += 1` was executed (0 or 1, at the `node is None`
base case).  The comparison order follows the source: `node.key == key`
first, then `key < node.key`, otherwise the right subtree. -/
def set_item [LinearOrder α] : Node α β → α → β → Node α β × Nat
  | .nil, key, newvalue => (.mk key newvalue .nil .nil, 1)
  | .mk k v l r, key, newvalue =>
    if k = key then
      (.mk k newvalue l r, 0)
    else if key < k then
      let res := set_item l key newvalue
      (.mk k v res.1 r, res.2)
    else
      let res := set_item r key newvalue
      (.mk k v l res.1, res.2)

/-- Models `BSTMap.__setitem__`: `self._root = _set_item(self._root, key,
newvalue)`, with `_num_entries` incremented by the helper. -/
def BSTMap.setitem [LinearOrder α] (m : BSTMap α β) (key : α) (newvalue : β) :
    BSTMap α β :=
  let res := set_item m.root key newvalue
  { root := res.1, num_entries := m.num_entries + res.2 }

/-- Models the nested helper `_get_item` of `BSTMap.__getitem__`: descend
comparing the key; `raise KeyError(f'{key}')` at a `None` position. -/
def get_item [LinearOrder α] : Node α β → α → Except (PyErr α) β
  | .nil, key => .error (.keyError key)
  | .mk k v l r, key =>
    if k = key then
      .ok v
    else if key < k then
      get_item l key
    else
      get_item r key

/-- Models `BSTMap.__getitem__`. -/
def BSTMap.getitem [LinearOrder α] (m : BSTMap α β) (key : α) :
    Except (PyErr α) β :=
  get_item m.root key

/-- Models the nested helper `_get` of `BSTMap.get`, which captures
`default_value` from the enclosing call and returns it at a `None`
position instead of raising. -/
def get_aux [LinearOrder α] (default_value : β) : Node α β → α → β
  | .nil, _ => default_value
  | .mk k v l r, key =>
    if k = key then
      v
    else if key < k then
      get_aux default_value l key
    else
      get_aux default_value r key

/-- Models `BSTMap.get(key, default_value)` with the default argument
passed explicitly. -/
def BSTMap.get [LinearOrder α] (m : BSTMap α β) (key : α) (default_value : β) :
    β :=
  get_aux default_value m.root key

/-- Models `BSTMap.__len__`: returns the stored `_num_entries`. -/
def BSTMap.len (m : BSTMap α β) : Nat :=
  m.num_entries

/-- Models the nested helper `_contains` of `BSTMap.__contains__`. -/
def contains_aux [LinearOrder α] : Node α β → α → Bool
  | .nil, _ => false
  | .mk k _ l r, key =>
    if k = key then
      true
    else if key < k then
      contains_aux l key
    else
      contains_aux r key

/-- Models `BSTMap.__contains__`. -/
def BSTMap.contains [LinearOrder α] (m : BSTMap α β) (key : α) : Bool :=
  contains_aux m.root key

/-- Models `BSTMap.__iter__`: the root node's inorder iterator when the
root is not `None`, and the empty iterator otherwise. -/
def BSTMap.iter (m : BSTMap α β) : List α :=
  match m.root with
  | .nil => []
  | t => t.inorder

/-- Models `BSTMap.__init__(iterable)`: start with `_root = None` and
`_num_entries = 0`, then execute `self[key] = value` for each pair of the
iterable in order. -/
def BSTMap.fromIterable [LinearOrder α] (iterable : List (α × β)) :
    BSTMap α β :=
  iterable.foldl (fun m kv => m.setitem kv.1 kv.2) { root := .nil, num_entries := 0 }

/-- Models the list comprehension in `BSTMap.__str__`:
`[repr(key) + ': ' + repr(self[key]) for key in self]`.  Evaluating
`self[key]` is `__getitem__`, which can raise, so the result lives in
`Except`; `reprK`/`reprV` stand for Python's builtin `repr` on the key
and value domains. -/
def render_entries [LinearOrder α] (reprK : α → String) (reprV : β → String)
    (root : Node α β) : List α → Except (PyErr α) (List String)
  | [] => .ok []
  | key :: keys =>
    match get_item root key with
    | .error e => .error e
    | .ok v =>
      match render_entries reprK reprV root keys with
      | .error e => .error e
      | .ok rest => .ok ((reprK key ++ ": " ++ reprV v) :: rest)

/-- Models `BSTMap.__str__`: `"\x7b\x7b\x7b0\x7d\x7d\x7d".format(", ".join([...]))`,
i.e. the comprehension's entries joined with a comma-space and wrapped in
braces. -/
def BSTMap.str [LinearOrder α] (reprK : α → String) (reprV : β → String)
    (m : BSTMap α β) : Except (PyErr α) String :=
  match render_entries reprK reprV m.root m.iter with
  | .ok parts => .ok ("\x7b" ++ String.intercalate ", " parts ++ "\x7d")
  | .error e => .error e

/-- Models `__repr__ = __str__`: the class aliases its repr to the very
same function object. -/
def BSTMap.repr [LinearOrder α] (reprK : α → String) (reprV : β → String)
    (m : BSTMap α β) : Except (PyErr α) String :=
  BSTMap.str reprK reprV m

/-- The single-quote character used by Python's `repr` on simple strings. -/
def squote : Char := Char.ofNat 39

/-- Models Python's builtin `repr` on `int` values: the usual decimal
rendering (with a leading minus sign when negative). -/
def pyReprInt (n : Int) : String := toString n

/-- Models Python's builtin `repr` on `str` values that contain no quote
or escape characters (the only kind appearing in the spec's scenarios):
the text enclosed in single quotes. -/
def pyReprStr (s : String) : String :=
  squote.toString ++ s ++ squote.toString

/-- Models calling `BSTMap.get(key)` with the `default_value` parameter
omitted: Python then supplies the declared default `None`.  The value
domain is `Option γ`, with `Option.none` playing Python's `None`. -/
def BSTMap.getNoDefault {γ : Type} [LinearOrder α] (m : BSTMap α (Option γ))
    (key : α) : Option γ :=
  m.get key none

/-- States the spec's construction recipe verbatim: start from an empty
map and call `insert_or_update` once per pair, in sequence order.
Compared against `BSTMap.fromIterable` for the refinement claim. -/
def specInsertFold [LinearOrder α] (pairs : List (α × β)) : BSTMap α β :=
  pairs.foldl (fun m kv => m.setitem kv.1 kv.2) { root := .nil, num_entries := 0 }

/-- The empty map, as produced by `BSTMap()` with no iterable. -/
def BSTMap.empty : BSTMap α β := { root := .nil, num_entries := 0 }

/-! ### Fallible-comparison model of `__setitem__`

Python key comparisons (`node.key == key`, `key < node.key`) may raise
for incomparable key types.  `set_item_f` re-traces `_set_item` with the
two comparisons supplied as fallible oracles.  Its error value records
the imperative state at the moment the exception escapes: the tree into
which the mutated-in-place objects of the original subtree now assemble,
and the number of `self._num_entries += 1` executions performed before
the raise.  In-place mutation order follows the source exactly: the
increment happens only at a `None` position, value overwrite and child
re-linking happen only after comparisons and recursion have succeeded,
and a raised comparison aborts before any of them. -/

/-- Fallible-comparison version of `set_item`.  `eqE k0 k` models
evaluating `node.key == key` and `ltE k k0` models `key < node.key`;
either may raise.  On success the result is the subtree root and the
count increment; on error it is the subtree as left in memory by the
aborted call together with the increments already performed. -/
def set_item_f (eqE : α → α → Except Unit Bool) (ltE : α → α → Except Unit Bool) :
    Node α β → α → β → Except (Node α β × Nat) (Node α β × Nat)
  | .nil, key, newvalue => .ok (.mk key newvalue .nil .nil, 1)
  | .mk k v l r, key, newvalue =>
    match eqE k key with
    | .error _ => .error (.mk k v l r, 0)
    | .ok true => .ok (.mk k newvalue l r, 0)
    | .ok false =>
      match ltE key k with
      | .error _ => .error (.mk k v l r, 0)
      | .ok true =>
        match set_item_f eqE ltE l key newvalue with
        | .ok res => .ok (.mk k v res.1 r, res.2)
        | .error err => .error (.mk k v err.1 r, err.2)
      | .ok false =>
        match set_item_f eqE ltE r key newvalue with
        | .ok res => .ok (.mk k v l res.1, res.2)
        | .error err => .error (.mk k v l err.1, err.2)

/-- Fallible-comparison version of `BSTMap.setitem`: on success the root
is re-assigned and the count updated; on error, the map as the raise
leaves it (root object unchanged in identity, its subtree as mutated,
count as incremented). -/
def BSTMap.setitem_f (eqE : α → α → Except Unit Bool)
    (ltE : α → α → Except Unit Bool) (m : BSTMap α β) (key : α)
    (newvalue : β) : Except (BSTMap α β) (BSTMap α β) :=
  match set_item_f eqE ltE m.root key newvalue with
  | .ok res => .ok { root := res.1, num_entries := m.num_entries + res.2 }
  | .error err => .error { root := err.1, num_entries := m.num_entries + err.2 }

/-! ### State-passing form of the query methods

Each Python query method receives `self`; the state-passing wrappers
below return the answer together with the map the method leaves behind,
so that "no mutation" is expressible as a theorem. -/

/-- State-passing `__getitem__`. -/
def BSTMap.getitemS [LinearOrder α] (m : BSTMap α β) (key : α) :
    Except (PyErr α) β × BSTMap α β :=
  (m.getitem key, m)

/-- State-passing `get`. -/
def BSTMap.getS [LinearOrder α] (m : BSTMap α β) (key : α)
    (default_value : β) : β × BSTMap α β :=
  (m.get key default_value, m)

/-- State-passing `__contains__`. -/
def BSTMap.containsS [LinearOrder α] (m : BSTMap α β) (key : α) :
    Bool × BSTMap α β :=
  (m.contains key, m)

/-- State-passing `__len__`. -/
def BSTMap.lenS (m : BSTMap α β) : Nat × BSTMap α β :=
  (m.len, m)

/-- State-passing `__iter__`. -/
def BSTMap.iterS (m : BSTMap α β) : List α × BSTMap α β :=
  (m.iter, m)

/-- The value of the last pair of the list whose key equals `key`, if
any: the reference meaning of "the last insertion of `key` wins". -/
def lastValue [DecidableEq α] : List (α × β) → α → Option β
  | [], _ => none
  | kv :: rest, key =>
    match lastValue rest key with
    | some v => some v
    | none => if kv.1 = key then some kv.2 else none

/-- A key-equality comparison that always raises, standing for a Python
`==` between incomparable objects. -/
def eqFail : Int → Int → Except Unit Bool := fun _ _ => .error ()

/-- A key-order comparison that always raises, standing for a Python `<`
between incomparable objects. -/
def ltFail : Int → Int → Except Unit Bool := fun _ _ => .error ()

/-! ### The BST order invariant -/

/-- The binary-search-tree order invariant: at every node, all keys of
the left subtree are strictly below the node's key and all keys of the
right subtree strictly above. -/
def Node.isBST [LinearOrder α] : Node α β → Prop
  | .nil => True
  | .mk key _ left right =>
      left.isBST ∧ right.isBST ∧
      (∀ x ∈ left.inorder, x < key) ∧ (∀ x ∈ right.inorder, key < x)

/-! ### Descent lemmas

`_set_item`, `_get_item`, `_get` and `_contains` all descend the tree by
the same comparisons, which makes the following lemmas hold for every
tree, balanced or not, BST or not. -/

theorem get_item_set_item_self [LinearOrder α] (t : Node α β) (key : α)
    (newvalue : β) :
    get_item (set_item t key newvalue).1 key = .ok newvalue := by
  induction t with
  | nil => simp [set_item, get_item]
  | mk k v l r ihl ihr =>
    by_cases hk : k = key
    · simp [set_item, get_item, hk]
    · by_cases hlt : key < k
      · simp [set_item, get_item, hk, hlt, ihl]
      · simp [set_item, get_item, hk, hlt, ihr]

theorem get_item_set_item_ne [LinearOrder α] (t : Node α β) {key key2 : α}
    (newvalue : β) (h : key2 ≠ key) :
    get_item (set_item t key newvalue).1 key2 = get_item t key2 := by
  induction t with
  | nil =>
    have h1 : ¬(key = key2) := fun e => h e.symm
    by_cases hlt : key2 < key <;> simp [set_item, get_item, h1, hlt]
  | mk k v l r ihl ihr =>
    by_cases hk : k = key
    · subst hk
      have h1 : ¬(k = key2) := fun e => h (e.symm)
      simp [set_item, get_item, h1]
    · by_cases hlt : key < k
      · have hred : set_item (Node.mk k v l r) key newvalue =
            (Node.mk k v (set_item l key newvalue).1 r,
              (set_item l key newvalue).2) := by
          simp [set_item, hk, hlt]
        rw [hred]
        by_cases hk2 : k = key2
        · simp [get_item, hk2]
        · by_cases hlt2 : key2 < k <;> simp [get_item, hk2, hlt2, ihl]
      · have hred : set_item (Node.mk k v l r) key newvalue =
            (Node.mk k v l (set_item r key newvalue).1,
              (set_item r key newvalue).2) := by
          simp [set_item, hk, hlt]
        rw [hred]
        by_cases hk2 : k = key2
        · simp [get_item, hk2]
        · by_cases hlt2 : key2 < k <;> simp [get_item, hk2, hlt2, ihr]

theorem snd_set_item [LinearOrder α] (t : Node α β) (key : α) (newvalue : β) :
    (set_item t key newvalue).2 = if contains_aux t key then 0 else 1 := by
  induction t with
  | nil => simp [set_item, contains_aux]
  | mk k v l r ihl ihr =>
    by_cases hk : k = key
    · simp [set_item, contains_aux, hk]
    · by_cases hlt : key < k <;>
        simp [set_item, contains_aux, hk, hlt, ihl, ihr]

theorem contains_aux_iff_getitem_ok [LinearOrder α] (t : Node α β) (key : α) :
    contains_aux t key = true ↔ ∃ v, get_item t key = .ok v := by
  induction t with
  | nil => simp [contains_aux, get_item]
  | mk k v l r ihl ihr =>
    by_cases hk : k = key
    · simp [contains_aux, get_item, hk]
    · by_cases hlt : key < k <;>
        simp [contains_aux, get_item, hk, hlt, ihl, ihr]

theorem getitem_error_of_not_contains [LinearOrder α] (t : Node α β) (key : α)
    (h : contains_aux t key = false) :
    get_item t key = .error (.keyError key) := by
  induction t with
  | nil => simp [get_item]
  | mk k v l r ihl ihr =>
    by_cases hk : k = key
    · simp [contains_aux, hk] at h
    · by_cases hlt : key < k
      · simp [contains_aux, hk, hlt] at h
        simp [get_item, hk, hlt, ihl h]
      · simp [contains_aux, hk, hlt] at h
        simp [get_item, hk, hlt, ihr h]

theorem get_aux_eq_get_item [LinearOrder α] (d : β) (t : Node α β) (key : α) :
    get_aux d t key =
      match get_item t key with
      | .ok v => v
      | .error _ => d := by
  induction t with
  | nil => simp [get_aux, get_item]
  | mk k v l r ihl ihr =>
    by_cases hk : k = key
    · simp [get_aux, get_item, hk]
    · by_cases hlt : key < k <;>
        simp [get_aux, get_item, hk, hlt, ihl, ihr]

theorem length_inorder_set_item [LinearOrder α] (t : Node α β) (key : α)
    (newvalue : β) :
    (set_item t key newvalue).1.inorder.length =
      t.inorder.length + (set_item t key newvalue).2 := by
  induction t with
  | nil => simp [set_item, Node.inorder]
  | mk k v l r ihl ihr =>
    by_cases hk : k = key
    · simp [set_item, Node.inorder, hk]
    · by_cases hlt : key < k
      · simp only [set_item, if_neg hk, if_pos hlt, Node.inorder,
          List.length_append, List.length_cons]
        omega
      · simp only [set_item, if_neg hk, if_neg hlt, Node.inorder,
          List.length_append, List.length_cons]
        omega

theorem iter_eq_inorder (m : BSTMap α β) : m.iter = m.root.inorder := by
  rw [BSTMap.iter]
  match m.root with
  | .nil => rfl
  | .mk k v l r => rfl

theorem mem_inorder_set_item [LinearOrder α] (t : Node α β) (key x : α)
    (newvalue : β) :
    x ∈ (set_item t key newvalue).1.inorder → x = key ∨ x ∈ t.inorder := by
  induction t with
  | nil =>
    intro h
    simp [set_item, Node.inorder] at h
    exact Or.inl h
  | mk k v l r ihl ihr =>
    intro h
    by_cases hk : k = key
    · simp only [set_item, if_pos hk] at h
      exact Or.inr h
    · by_cases hlt : key < k
      · simp only [set_item, if_neg hk, if_pos hlt, Node.inorder,
          List.mem_append, List.mem_cons] at h
        simp only [Node.inorder, List.mem_append, List.mem_cons]
        rcases h with h | h | h
        · rcases ihl h with h' | h'
          · exact Or.inl h'
          · exact Or.inr (Or.inl h')
        · exact Or.inr (Or.inr (Or.inl h))
        · exact Or.inr (Or.inr (Or.inr h))
      · simp only [set_item, if_neg hk, if_neg hlt, Node.inorder,
          List.mem_append, List.mem_cons] at h
        simp only [Node.inorder, List.mem_append, List.mem_cons]
        rcases h with h | h | h
        · exact Or.inr (Or.inl h)
        · exact Or.inr (Or.inr (Or.inl h))
        · rcases ihr h with h' | h'
          · exact Or.inl h'
          · exact Or.inr (Or.inr (Or.inr h'))

theorem isBST_set_item [LinearOrder α] (t : Node α β) (key : α) (newvalue : β) :
    t.isBST → (set_item t key newvalue).1.isBST := by
  induction t with
  | nil =>
    intro _
    simp [set_item, Node.isBST, Node.inorder]
  | mk k v l r ihl ihr =>
    intro h
    obtain ⟨hbl, hbr, hlb, hrb⟩ := h
    by_cases hk : k = key
    · simp only [set_item, if_pos hk]
      exact ⟨hbl, hbr, hlb, hrb⟩
    · by_cases hlt : key < k
      · simp only [set_item, if_neg hk, if_pos hlt]
        refine ⟨ihl hbl, hbr, ?_, hrb⟩
        intro x hx
        rcases mem_inorder_set_item l key x newvalue hx with rfl | hx'
        · exact hlt
        · exact hlb x hx'
      · have hgt : k < key := lt_of_le_of_ne (not_lt.mp hlt) hk
        simp only [set_item, if_neg hk, if_neg hlt]
        refine ⟨hbl, ihr hbr, hlb, ?_⟩
        intro x hx
        rcases mem_inorder_set_item r key x newvalue hx with rfl | hx'
        · exact hgt
        · exact hrb x hx'

theorem sorted_inorder_of_isBST [LinearOrder α] (t : Node α β) :
    t.isBST → List.Sorted (· < ·) t.inorder := by
  induction t with
  | nil =>
    intro _
    simp [Node.inorder]
  | mk k v l r ihl ihr =>
    intro h
    obtain ⟨hbl, hbr, hlb, hrb⟩ := h
    rw [Node.inorder]
    refine List.pairwise_append.mpr ⟨ihl hbl, List.sorted_cons.mpr ⟨hrb, ihr hbr⟩, ?_⟩
    intro a ha b hb
    rcases List.mem_cons.mp hb with rfl | hb'
    · exact hlb a ha
    · exact (hlb a ha).trans (hrb b hb')

theorem getitem_ok_of_mem_inorder [LinearOrder α] (t : Node α β) (key : α) :
    t.isBST → key ∈ t.inorder → ∃ v, get_item t key = .ok v := by
  induction t with
  | nil =>
    intro _ h
    simp [Node.inorder] at h
  | mk k v l r ihl ihr =>
    intro hb h
    obtain ⟨hbl, hbr, hlb, hrb⟩ := hb
    rw [Node.inorder] at h
    rcases List.mem_append.mp h with hl | hkr
    · have hklt : key < k := hlb key hl
      have hk : ¬(k = key) := ne_of_gt hklt
      simpa [get_item, hk, hklt] using ihl hbl hl
    · rcases List.mem_cons.mp hkr with rfl | hr
      · exact ⟨v, by simp [get_item]⟩
      · have hkgt : k < key := hrb key hr
        have hk : ¬(k = key) := ne_of_lt hkgt
        have hnlt : ¬(key < k) := not_lt.mpr hkgt.le
        simpa [get_item, hk, hnlt] using ihr hbr hr

/-! ### Lemmas about whole insertion sequences -/

theorem getitem_foldl [LinearOrder α] (ops : List (α × β)) (init : BSTMap α β)
    (key : α) :
    (ops.foldl (fun m kv => m.setitem kv.1 kv.2) init).getitem key =
      match lastValue ops key with
      | some v => .ok v
      | none => init.getitem key := by
  induction ops generalizing init with
  | nil => simp [lastValue]
  | cons kv rest ih =>
    rw [List.foldl_cons, ih]
    cases hlv : lastValue rest key with
    | some v => simp [lastValue, hlv]
    | none =>
      by_cases hk : kv.1 = key
      · simp [lastValue, hlv, hk, BSTMap.getitem, BSTMap.setitem,
          hk ▸ get_item_set_item_self init.root kv.1 kv.2]
      · have hne : key ≠ kv.1 := fun e => hk e.symm
        simp [lastValue, hlv, hk, BSTMap.getitem, BSTMap.setitem,
          get_item_set_item_ne init.root kv.2 hne]

theorem lastValue_eq_none_iff [DecidableEq α] (ops : List (α × β)) (key : α) :
    lastValue ops key = none ↔ key ∉ ops.map Prod.fst := by
  induction ops with
  | nil => simp [lastValue]
  | cons kv rest ih =>
    cases hlv : lastValue rest key with
    | some v =>
      have hmem : key ∈ rest.map Prod.fst := by
        by_contra hc
        rw [← ih] at hc
        simp [hlv] at hc
      simp only [lastValue, hlv, List.map_cons, List.mem_cons]
      constructor
      · intro h
        exact absurd h (by simp)
      · intro h
        exact absurd (Or.inr hmem) h
    | none =>
      by_cases hk : kv.1 = key
      · simp only [lastValue, hlv, List.map_cons, List.mem_cons, if_pos hk]
        constructor
        · intro h
          exact absurd h (by simp)
        · intro h
          exact absurd (Or.inl hk.symm) h
      · simp only [lastValue, hlv, List.map_cons, List.mem_cons, if_neg hk]
        constructor
        · intro _ hmem
          rcases hmem with he | hm
          · exact hk he.symm
          · exact (ih.mp hlv) hm
        · intro _
          trivial

theorem isBST_foldl [LinearOrder α] (ops : List (α × β)) (init : BSTMap α β) :
    init.root.isBST →
    (ops.foldl (fun m kv => m.setitem kv.1 kv.2) init).root.isBST := by
  induction ops generalizing init with
  | nil =>
    intro h
    exact h
  | cons kv rest ih =>
    intro h
    rw [List.foldl_cons]
    exact ih _ (isBST_set_item init.root kv.1 kv.2 h)

theorem num_entries_foldl [LinearOrder α] (ops : List (α × β))
    (init : BSTMap α β) :
    init.num_entries = init.root.inorder.length →
    (ops.foldl (fun m kv => m.setitem kv.1 kv.2) init).num_entries =
      (ops.foldl (fun m kv => m.setitem kv.1 kv.2) init).root.inorder.length := by
  induction ops generalizing init with
  | nil =>
    intro h
    exact h
  | cons kv rest ih =>
    intro h
    rw [List.foldl_cons]
    refine ih _ ?_
    show init.num_entries + (set_item init.root kv.1 kv.2).2 =
      (set_item init.root kv.1 kv.2).1.inorder.length
    rw [length_inorder_set_item, h]

theorem render_entries_ok [LinearOrder α] (reprK : α → String)
    (reprV : β → String) (root : Node α β) (d : β) (keys : List α) :
    (∀ k ∈ keys, ∃ v, get_item root k = .ok v) →
    render_entries reprK reprV root keys =
      .ok (keys.map fun k => reprK k ++ ": " ++ reprV (get_aux d root k)) := by
  induction keys with
  | nil =>
    intro _
    simp [render_entries]
  | cons k ks ih =>
    intro h
    obtain ⟨v, hv⟩ := h k (by simp)
    have hrest := ih fun a ha => h a (by simp [ha])
    simp [render_entries, hv, hrest, get_aux_eq_get_item]

/-- No comparison failure can leave a partial mutation behind: if a
fallible comparison raises during `_set_item`, the subtree in memory is
exactly the original one and no count increment has happened. -/
theorem set_item_f_error (eqE ltE : α → α → Except Unit Bool) (t : Node α β)
    (key : α) (newvalue : β) (p : Node α β × Nat) :
    set_item_f eqE ltE t key newvalue = .error p → p.1 = t ∧ p.2 = 0 := by
  induction t generalizing p with
  | nil =>
    intro h
    simp [set_item_f] at h
  | mk k v l r ihl ihr =>
    intro h
    rw [set_item_f] at h
    cases heq : eqE k key with
    | error e =>
      rw [heq] at h
      cases h
      exact ⟨rfl, rfl⟩
    | ok b =>
      rw [heq] at h
      cases b with
      | true => cases h
      | false =>
        cases hlt : ltE key k with
        | error e =>
          rw [hlt] at h
          cases h
          exact ⟨rfl, rfl⟩
        | ok bl =>
          rw [hlt] at h
          cases bl with
          | true =>
            cases hrec : set_item_f eqE ltE l key newvalue with
            | ok res =>
              rw [hrec] at h
              cases h
            | error err =>
              rw [hrec] at h
              cases h
              obtain ⟨h1, h2⟩ := ihl err hrec
              constructor
              · show Node.mk k v err.1 r = Node.mk k v l r
                rw [h1]
              · exact h2
          | false =>
            cases hrec : set_item_f eqE ltE r key newvalue with
            | ok res =>
              rw [hrec] at h
              cases h
            | error err =>
              rw [hrec] at h
              cases h
              obtain ⟨h1, h2⟩ := ihr err hrec
              constructor
              · show Node.mk k v l err.1 = Node.mk k v l r
                rw [h1]
              · exact h2

/-- With comparisons that cannot fail (a genuinely totally ordered key
domain), the fallible model agrees with `set_item`. -/
theorem set_item_f_ok [LinearOrder α] (t : Node α β) (key : α) (newvalue : β) :
    set_item_f (fun a b => .ok (decide (a = b))) (fun a b => .ok (decide (a < b)))
      t key newvalue = .ok (set_item t key newvalue) := by
  induction t with
  | nil => simp [set_item_f, set_item]
  | mk k v l r ihl ihr =>
    by_cases hk : k = key
    · simp [set_item_f, set_item, hk]
    · by_cases hlt : key < k
      · simp [set_item_f, set_item, hk, hlt, ihl]
      · simp [set_item_f, set_item, hk, hlt, ihr]

theorem len_fromIterable_card [LinearOrder α] (ops : List (α × β)) :
    (BSTMap.fromIterable ops).num_entries = (ops.map Prod.fst).toFinset.card := by
  induction ops using List.reverseRecOn with
  | nil => simp [BSTMap.fromIterable]
  | append_singleton rest kv ih =>
    have hsplit : BSTMap.fromIterable (rest ++ [kv]) =
        (BSTMap.fromIterable rest).setitem kv.1 kv.2 := by
      simp only [BSTMap.fromIterable, List.foldl_append, List.foldl_cons,
        List.foldl_nil]
    rw [hsplit]
    have hnum : ((BSTMap.fromIterable rest).setitem kv.1 kv.2).num_entries =
        (BSTMap.fromIterable rest).num_entries +
          (if contains_aux (BSTMap.fromIterable rest).root kv.1 then 0 else 1) := by
      simp [BSTMap.setitem, snd_set_item]
    have hset : ((rest ++ [kv]).map Prod.fst).toFinset =
        insert kv.1 (rest.map Prod.fst).toFinset := by
      simp [List.map_append, Finset.union_comm, Finset.insert_eq]
    rw [hnum, ih, hset]
    by_cases hm : kv.1 ∈ rest.map Prod.fst
    · obtain ⟨v, hlv⟩ : ∃ v, lastValue rest kv.1 = some v := by
        cases h0 : lastValue rest kv.1 with
        | none => exact absurd hm ((lastValue_eq_none_iff rest kv.1).mp h0)
        | some v => exact ⟨v, rfl⟩
      have hok : get_item (BSTMap.fromIterable rest).root kv.1 = .ok v := by
        have := getitem_foldl rest { root := .nil, num_entries := 0 } kv.1
        simp only [BSTMap.fromIterable, BSTMap.getitem] at this ⊢
        rw [this, hlv]
      have hc : contains_aux (BSTMap.fromIterable rest).root kv.1 = true :=
        (contains_aux_iff_getitem_ok _ _).mpr ⟨v, hok⟩
      rw [hc, Finset.insert_eq_self.mpr (List.mem_toFinset.mpr hm)]
      simp
    · have hlv : lastValue rest kv.1 = none :=
        (lastValue_eq_none_iff rest kv.1).mpr hm
      have herr : get_item (BSTMap.fromIterable rest).root kv.1 =
          .error (.keyError kv.1) := by
        have := getitem_foldl rest { root := .nil, num_entries := 0 } kv.1
        simp only [BSTMap.fromIterable, BSTMap.getitem] at this ⊢
        rw [this, hlv]
        rfl
      have hc : contains_aux (BSTMap.fromIterable rest).root kv.1 = false := by
        cases hc0 : contains_aux (BSTMap.fromIterable rest).root kv.1 with
        | false => rfl
        | true =>
          obtain ⟨v, hv⟩ := (contains_aux_iff_getitem_ok _ _).mp hc0
          rw [hv] at herr
          simp at herr
      rw [hc, Finset.card_insert_of_not_mem (fun hmem => hm (List.mem_toFinset.mp hmem))]
      simp

/-! ### The claims -/

/-- C1: for every map state reachable from the empty map by a finite
sequence of `insert_or_update` calls over a totally ordered key domain,
`entries_in_order()` (the key iterator) yields the keys in strictly
ascending order, and two calls on the same state yield identical
sequences. -/
theorem C1_iteration_sorted [LinearOrder α] (ops : List (α × β)) :
    List.Sorted (· < ·) (BSTMap.fromIterable ops).iter ∧
    (BSTMap.fromIterable ops).iter = (BSTMap.fromIterable ops).iter := by
  refine ⟨?_, rfl⟩
  rw [iter_eq_inorder]
  exact sorted_inorder_of_isBST _ (isBST_foldl ops { root := .nil, num_entries := 0 } trivial)

/-- C2: after any finite insertion sequence from the empty map, looking
up a key that was inserted returns the value of its last insertion; in
particular inserting `(k, v1)` then `(k, v2)` makes lookup return `v2`
and leaves the size unchanged beyond the first insertion's increment. -/
theorem C2_last_insertion_wins [LinearOrder α] (β : Type) :
    (∀ (ops : List (α × β)) (key : α) (v : β),
        lastValue ops key = some v →
        (BSTMap.fromIterable ops).getitem key = .ok v) ∧
    (∀ (ops : List (α × β)) (key : α) (v1 v2 : β),
        (((BSTMap.fromIterable ops).setitem key v1).setitem key v2).getitem key =
          .ok v2 ∧
        (((BSTMap.fromIterable ops).setitem key v1).setitem key v2).len =
          ((BSTMap.fromIterable ops).setitem key v1).len) := by
  constructor
  · intro ops key v h
    have := getitem_foldl ops { root := .nil, num_entries := 0 } key
    simp only [BSTMap.fromIterable]
    rw [this, h]
  · intro ops key v1 v2
    constructor
    · simp [BSTMap.getitem, BSTMap.setitem, get_item_set_item_self]
    · have hok : get_item ((BSTMap.fromIterable ops).setitem key v1).root key =
          .ok v1 := by
        simp [BSTMap.setitem, get_item_set_item_self]
      have hc : contains_aux ((BSTMap.fromIterable ops).setitem key v1).root key =
          true :=
        (contains_aux_iff_getitem_ok _ _).mpr ⟨v1, hok⟩
      show (((BSTMap.fromIterable ops).setitem key v1).setitem key v2).num_entries =
        ((BSTMap.fromIterable ops).setitem key v1).num_entries
      rw [BSTMap.setitem]
      simp [snd_set_item, hc]

/-- Witness for C2 at a concrete input: inserting key 1 twice, the
second value wins. -/
theorem C2_last_insertion_wins_witness :
    (BSTMap.fromIterable [((1 : Int), "a"), (1, "b")]).getitem 1 = .ok "b" :=
  (C2_last_insertion_wins String).1 [((1 : Int), "a"), (1, "b")] 1 "b" (by decide)

/-- C3: after any finite insertion sequence from the empty map, `size()`
equals the number of distinct keys inserted, and the stored count equals
the number of (pairwise distinct) keys reachable from the root. -/
theorem C3_size_counts_distinct_keys [LinearOrder α] (ops : List (α × β)) :
    (BSTMap.fromIterable ops).len = (ops.map Prod.fst).toFinset.card ∧
    (BSTMap.fromIterable ops).num_entries = (BSTMap.fromIterable ops).iter.length ∧
    (BSTMap.fromIterable ops).iter.Nodup := by
  refine ⟨len_fromIterable_card ops, ?_, ?_⟩
  · rw [iter_eq_inorder]
    exact num_entries_foldl ops { root := .nil, num_entries := 0 } rfl
  · rw [iter_eq_inorder]
    exact (sorted_inorder_of_isBST _
      (isBST_foldl ops { root := .nil, num_entries := 0 } trivial)).nodup

/-- C4: for a key never inserted, strict lookup fails with `KeyError`
(the KeyNotFound condition), membership is false, and defaulting lookup
returns the supplied default. -/
theorem C4_absent_key [LinearOrder α] (ops : List (α × β)) (key : α) :
    key ∉ ops.map Prod.fst →
    (BSTMap.fromIterable ops).getitem key = .error (.keyError key) ∧
    (BSTMap.fromIterable ops).contains key = false ∧
    ∀ d : β, (BSTMap.fromIterable ops).get key d = d := by
  intro h
  have hlv : lastValue ops key = none := (lastValue_eq_none_iff ops key).mpr h
  have hgi : (BSTMap.fromIterable ops).getitem key = .error (.keyError key) := by
    have := getitem_foldl ops { root := .nil, num_entries := 0 } key
    simp only [BSTMap.fromIterable]
    rw [this, hlv]
    rfl
  refine ⟨hgi, ?_, ?_⟩
  · show contains_aux (BSTMap.fromIterable ops).root key = false
    cases hc0 : contains_aux (BSTMap.fromIterable ops).root key with
    | false => rfl
    | true =>
      obtain ⟨v, hv⟩ := (contains_aux_iff_getitem_ok _ _).mp hc0
      rw [BSTMap.getitem, hv] at hgi
      simp at hgi
  · intro d
    rw [BSTMap.getitem] at hgi
    simp only [BSTMap.get, get_aux_eq_get_item, hgi]

/-- Witness for C4 at a concrete input: key 2 was never inserted. -/
theorem C4_absent_key_witness :
    (BSTMap.fromIterable [((1 : Int), "a")]).getitem 2 = .error (.keyError 2) ∧
    (BSTMap.fromIterable [((1 : Int), "a")]).contains 2 = false ∧
    ∀ d : String, (BSTMap.fromIterable [((1 : Int), "a")]).get 2 d = d :=
  C4_absent_key [((1 : Int), "a")] 2 (by decide)

/-- C5: constructing a map from a sequence of pairs is the same as
starting from the empty map and calling `insert_or_update` once per pair
in order (identical states, hence identical size, lookups and iteration
order), and the empty sequence yields the empty map. -/
theorem C5_construction_equivalence [LinearOrder α] (ops : List (α × β)) :
    BSTMap.fromIterable ops = specInsertFold ops ∧
    (BSTMap.fromIterable ops).len = (specInsertFold ops).len ∧
    (∀ key, (BSTMap.fromIterable ops).getitem key = (specInsertFold ops).getitem key) ∧
    (BSTMap.fromIterable ops).iter = (specInsertFold ops).iter ∧
    BSTMap.fromIterable ([] : List (α × β)) = BSTMap.empty :=
  ⟨rfl, rfl, fun _ => rfl, rfl, rfl⟩

/-- C6: the string rendering is the inorder keys, each `repr(key): repr(value)`,
joined by comma-space and wrapped in braces; concretely the scenario
(5,"A"), (3,"B"), (8,"C"), (3,"D") renders with keys 3, 5, 8 in order
and quoted values, and the empty map renders as a pair of braces. -/
theorem C6_canonical_rendering :
    (BSTMap.fromIterable [((5 : Int), "A"), (3, "B"), (8, "C"), (3, "D")]).str
        pyReprInt pyReprStr =
      .ok ("\x7b" ++ "3: " ++ pyReprStr "D" ++ ", " ++ "5: " ++ pyReprStr "A" ++
        ", " ++ "8: " ++ pyReprStr "C" ++ "\x7d") ∧
    (BSTMap.empty : BSTMap Int String).str pyReprInt pyReprStr =
      .ok ("\x7b" ++ "\x7d") ∧
    ∀ ops : List (Int × String),
      List.Sorted (· < ·) (BSTMap.fromIterable ops).iter ∧
      (BSTMap.fromIterable ops).str pyReprInt pyReprStr =
        .ok ("\x7b" ++ String.intercalate ", "
          ((BSTMap.fromIterable ops).iter.map fun k =>
            pyReprInt k ++ ": " ++ pyReprStr ((BSTMap.fromIterable ops).get k ""))
          ++ "\x7d") := by
  refine ⟨rfl, rfl, ?_⟩
  intro ops
  have hbst : (BSTMap.fromIterable ops).root.isBST :=
    isBST_foldl ops { root := .nil, num_entries := 0 } trivial
  refine ⟨?_, ?_⟩
  · rw [iter_eq_inorder]
    exact sorted_inorder_of_isBST _ hbst
  · have hok : ∀ k ∈ (BSTMap.fromIterable ops).iter,
        ∃ v, get_item (BSTMap.fromIterable ops).root k = .ok v := by
      intro k hk
      rw [iter_eq_inorder] at hk
      exact getitem_ok_of_mem_inorder _ _ hbst hk
    have hre := render_entries_ok pyReprInt pyReprStr
      (BSTMap.fromIterable ops).root "" (BSTMap.fromIterable ops).iter hok
    simp only [BSTMap.str, hre]
    rfl

/-- C7: a key-comparison failure during `insert_or_update` leaves the
tree shape, every stored value and the count exactly as they were; with
failure-free comparisons the insertion is the normal one (full leaf link
with increment, or full value overwrite). -/
theorem C7_insertion_atomic [LinearOrder α] (β : Type) :
    (∀ (eqE ltE : α → α → Except Unit Bool) (t : Node α β) (key : α)
        (newvalue : β) (p : Node α β × Nat),
        set_item_f eqE ltE t key newvalue = .error p → p.1 = t ∧ p.2 = 0) ∧
    (∀ (eqE ltE : α → α → Except Unit Bool) (m : BSTMap α β) (key : α)
        (newvalue : β) (m' : BSTMap α β),
        BSTMap.setitem_f eqE ltE m key newvalue = .error m' → m' = m) ∧
    (∀ (t : Node α β) (key : α) (newvalue : β),
        set_item_f (fun a b => .ok (decide (a = b)))
          (fun a b => .ok (decide (a < b))) t key newvalue =
          .ok (set_item t key newvalue)) := by
  refine ⟨set_item_f_error, ?_, set_item_f_ok⟩
  intro eqE ltE m key newvalue m' h
  rw [BSTMap.setitem_f] at h
  cases hrec : set_item_f eqE ltE m.root key newvalue with
  | ok res =>
    rw [hrec] at h
    cases h
  | error err =>
    rw [hrec] at h
    cases h
    obtain ⟨h1, h2⟩ := set_item_f_error eqE ltE m.root key newvalue err hrec
    rw [h1, h2]
    simp

/-- Witness for C7 at a concrete input: with comparisons that raise, the
map after the failed insertion is the original map. -/
theorem C7_insertion_atomic_witness :
    ({ root := Node.mk (1 : Int) "x" Node.nil Node.nil, num_entries := 1 } :
        BSTMap Int String) =
      { root := Node.mk (1 : Int) "x" Node.nil Node.nil, num_entries := 1 } :=
  (C7_insertion_atomic String).2.1 eqFail ltFail
    { root := Node.mk (1 : Int) "x" Node.nil Node.nil, num_entries := 1 }
    2 "y" _ rfl

/-- C8: the query operations (strict lookup, defaulting lookup,
membership, size, iteration) leave the map state completely unchanged. -/
theorem C8_queries_do_not_mutate [LinearOrder α] (m : BSTMap α β) (key : α)
    (d : β) :
    (m.getitemS key).2 = m ∧ (m.getS key d).2 = m ∧ (m.containsS key).2 = m ∧
    m.lenS.2 = m ∧ m.iterS.2 = m :=
  ⟨rfl, rfl, rfl, rfl, rfl⟩

/-- C9: calling `get` without an explicit default on an absent key
returns Python's `None` (the declared default), not an error. -/
theorem C9_default_is_none {γ : Type} [LinearOrder α]
    (ops : List (α × Option γ)) (key : α) :
    (BSTMap.fromIterable ops).contains key = false →
    (BSTMap.fromIterable ops).getNoDefault key = none := by
  intro h
  have herr : get_item (BSTMap.fromIterable ops).root key =
      .error (.keyError key) :=
    getitem_error_of_not_contains _ _ h
  simp only [BSTMap.getNoDefault, BSTMap.get, get_aux_eq_get_item, herr]

/-- Witness for C9 at a concrete input: key 3 is absent. -/
theorem C9_default_is_none_witness :
    (BSTMap.fromIterable [((1 : Int), some (2 : Nat))]).getNoDefault 3 = none :=
  C9_default_is_none [((1 : Int), some (2 : Nat))] 3 (by decide)

/-- C10: the debugging representation and the canonical rendering are
the same function (`__repr__ = __str__`), hence identical strings on
every map. -/
theorem C10_repr_is_str [LinearOrder α] (reprK : α → String)
    (reprV : β → String) (m : BSTMap α β) :
    BSTMap.repr reprK reprV m = BSTMap.str reprK reprV m :=
  rfl

end SYSC2100
